import Mathlib

/-!
# Verification of the `EncryptedLuckyDraw` contract

A shallow embedding of `src/contracts/EncryptedLuckyDraw.sol`.

The contract runs on an FHE-enabled EVM.  We model:

* addresses as natural numbers;
* FHE ciphertexts as handles (natural numbers) into an FHE co-processor
  state that records the plaintext value behind every allocated handle
  (`euint32` values as naturals mod `2 ^ 32`, `ebool` values encoded as
  `0` / `1`) together with the access-control list of every handle
  (`FHE.allow` for user grants, `FHE.allowThis` for the contract grant);
* `keccak256` as an arbitrary function from the list of packed arguments
  to a natural number (it is an external EVM primitive; all properties
  proved here hold for every such function);
* reverts as `Except.error`; an EVM-level call wrapper restores the
  pre-state on revert, mirroring transaction rollback.

Every state-modifying operation of the contract (`register`,
`drawWinner`) is translated statement by statement from the Solidity
source, including the `uint32` truncations and the order in which fresh
ciphertext handles are allocated and granted.
-/

namespace LuckyDraw

/-- EVM addresses, modelled as natural numbers. -/
abbrev Address := Nat

/-- Pointwise update of a function, used for Solidity `mapping` writes. -/
def upd {α β : Type} [DecidableEq α] (f : α → β) (a : α) (b : β) : α → β :=
  fun x => if x = a then b else f x

@[simp] theorem upd_same {α β : Type} [DecidableEq α] (f : α → β) (a : α) (b : β) :
    upd f a b a = b := by
  simp [upd]

@[simp] theorem upd_ne {α β : Type} [DecidableEq α] (f : α → β) (a : α) (b : β)
    (x : α) (h : x ≠ a) : upd f a b x = f x := by
  simp [upd, h]

/-- State of the FHE co-processor: the next fresh ciphertext handle, the
plaintext behind every handle, and the per-handle access-control lists.
Handle `0` is the "zero ciphertext" of an uninitialised storage slot;
allocated handles start at `1`. -/
structure FHEState where
  nextHandle : Nat
  vals : Nat → Nat
  aclUser : Nat → Address → Bool
  aclThis : Nat → Bool

/-- Allocate a fresh ciphertext handle holding plaintext `v`
(`FHE.fromExternal`, `FHE.asEuint32`, `FHE.asEbool`, `FHE.eq` all
allocate through this). -/
def FHEState.fresh (f : FHEState) (v : Nat) : Nat × FHEState :=
  (f.nextHandle,
   { f with nextHandle := f.nextHandle + 1, vals := upd f.vals f.nextHandle v })

/-- `FHE.allow(handle, account)`: grant decrypt rights on `h` to `a`. -/
def FHEState.allow (f : FHEState) (h : Nat) (a : Address) : FHEState :=
  { f with aclUser := fun h2 a2 => if h2 = h ∧ a2 = a then true else f.aclUser h2 a2 }

/-- `FHE.allowThis(handle)`: grant decrypt rights on `h` to the contract. -/
def FHEState.allowThis (f : FHEState) (h : Nat) : FHEState :=
  { f with aclThis := upd f.aclThis h true }

@[simp] theorem fresh_fst (f : FHEState) (v : Nat) : (f.fresh v).1 = f.nextHandle := rfl

@[simp] theorem fresh_nextHandle (f : FHEState) (v : Nat) :
    (f.fresh v).2.nextHandle = f.nextHandle + 1 := rfl

@[simp] theorem fresh_vals (f : FHEState) (v : Nat) :
    (f.fresh v).2.vals = upd f.vals f.nextHandle v := rfl

@[simp] theorem fresh_aclUser (f : FHEState) (v : Nat) :
    (f.fresh v).2.aclUser = f.aclUser := rfl

@[simp] theorem allow_nextHandle (f : FHEState) (h : Nat) (a : Address) :
    (f.allow h a).nextHandle = f.nextHandle := rfl

@[simp] theorem allow_vals (f : FHEState) (h : Nat) (a : Address) :
    (f.allow h a).vals = f.vals := rfl

@[simp] theorem allowThis_nextHandle (f : FHEState) (h : Nat) :
    (f.allowThis h).nextHandle = f.nextHandle := rfl

@[simp] theorem allowThis_vals (f : FHEState) (h : Nat) :
    (f.allowThis h).vals = f.vals := rfl

@[simp] theorem allowThis_aclUser (f : FHEState) (h : Nat) :
    (f.allowThis h).aclUser = f.aclUser := rfl

theorem allow_aclUser (f : FHEState) (h : Nat) (a : Address) (h2 : Nat) (a2 : Address) :
    (f.allow h a).aclUser h2 a2 = if h2 = h ∧ a2 = a then true else f.aclUser h2 a2 := rfl

@[simp] theorem allow_aclUser_self (f : FHEState) (h : Nat) (a : Address) :
    (f.allow h a).aclUser h a = true := by
  simp [allow_aclUser]

@[simp] theorem allow_aclUser_ne_handle (f : FHEState) (h : Nat) (a : Address)
    (h2 : Nat) (a2 : Address) (hne : h2 ≠ h) :
    (f.allow h a).aclUser h2 a2 = f.aclUser h2 a2 := by
  simp [allow_aclUser, hne]

@[simp] theorem allow_aclUser_ne_addr (f : FHEState) (h : Nat) (a : Address)
    (h2 : Nat) (a2 : Address) (hne : a2 ≠ a) :
    (f.allow h a).aclUser h2 a2 = f.aclUser h2 a2 := by
  simp [allow_aclUser, hne]

theorem allow_aclUser_true_iff (f : FHEState) (h : Nat) (a : Address)
    (h2 : Nat) (a2 : Address) :
    (f.allow h a).aclUser h2 a2 = true ↔ (h2 = h ∧ a2 = a) ∨ f.aclUser h2 a2 = true := by
  by_cases hc : h2 = h ∧ a2 = a
  · simp [allow_aclUser, hc]
  · simp [allow_aclUser, hc]

/-- Errors: the contract's custom errors plus `revert("…")` string reverts. -/
inductive Err where
  | alreadyRegistered
  | notRegistered
  | notAuthorized
  | noParticipants
  | reverted (msg : String)
deriving DecidableEq

/-- The `ParticipantRegistered` event. -/
structure RegEvent where
  participant : Address
  index : Nat
deriving DecidableEq

/-- The `WinnerDrawn` event. -/
structure DrawEvent where
  randomnessCommitment : Nat
  participantCount : Nat
deriving DecidableEq

/-- Contract storage plus the FHE co-processor state. Fields mirror the
Solidity state variables (`ADMIN_ADDRESS`, `MAX_PARTICIPANTS`,
`_participants`, `_registered`, `_indices`, `_encryptedIds`,
`_winStatus`, `_encryptedWinnerIndex`, `_hasDrawn`,
`_lastDrawTimestamp`). -/
structure ContractState where
  ADMIN_ADDRESS : Address
  MAX_PARTICIPANTS : Nat
  participants : List Address
  registered : Address → Bool
  indices : Address → Nat
  encryptedIds : Address → Nat
  winStatus : Address → Nat
  encryptedWinnerIndex : Nat
  hasDrawn : Bool
  lastDrawTimestamp : Nat
  fhe : FHEState

/-- Block context read by `drawWinner`: `blockhash(block.number - 1)`,
`block.prevrandao`, `block.timestamp`, `block.number`. -/
structure BlockEnv where
  blockhashPrev : Nat
  prevrandao : Nat
  timestamp : Nat
  number : Nat

/-- Constructor: the deployer becomes the admin, `maxParticipants` is
recorded; all mappings and the winner ciphertext start zeroed. -/
def initialState (deployer : Address) (maxParticipants : Nat) : ContractState :=
  { ADMIN_ADDRESS := deployer
    MAX_PARTICIPANTS := maxParticipants
    participants := []
    registered := fun _ => false
    indices := fun _ => 0
    encryptedIds := fun _ => 0
    winStatus := fun _ => 0
    encryptedWinnerIndex := 0
    hasDrawn := false
    lastDrawTimestamp := 0
    fhe := { nextHandle := 1, vals := fun _ => 0,
             aclUser := fun _ _ => false, aclThis := fun _ => false } }

/-- The successful branch of `register`, translated line by line:
`FHE.fromExternal`, push, index bookkeeping, storing and granting the
encrypted id, initialising and granting the win status, and the
late-registration grant on the winner index when a draw has happened. -/
def registerOk (s : ContractState) (sender : Address) (extVal : Nat) :
    ContractState × RegEvent :=
  let r1 := s.fhe.fresh (extVal % 2 ^ 32)
  let encryptedId := r1.1
  let participants := s.participants ++ [sender]
  let participantIndex := (participants.length - 1) % 2 ^ 32
  let f2 := (r1.2.allowThis encryptedId).allow encryptedId sender
  let r3 := f2.fresh 0
  let initialWin := r3.1
  let f4 := (r3.2.allowThis initialWin).allow initialWin sender
  let f5 := if s.hasDrawn then f4.allow s.encryptedWinnerIndex sender else f4
  ({ s with
      participants := participants
      indices := upd s.indices sender participantIndex
      registered := upd s.registered sender true
      encryptedIds := upd s.encryptedIds sender encryptedId
      winStatus := upd s.winStatus sender initialWin
      fhe := f5 },
   ⟨sender, participantIndex⟩)

/-- `register(externalEuint32 encryptedIdInput, bytes inputProof)`:
reverts `AlreadyRegistered` for repeat callers, reverts with
`"Maximum participants reached"` when the list is full, otherwise
runs the successful branch. -/
def register (s : ContractState) (sender : Address) (extVal : Nat) :
    Except Err (ContractState × RegEvent) :=
  if s.registered sender then .error .alreadyRegistered
  else if s.MAX_PARTICIPANTS ≤ s.participants.length then
    .error (.reverted "Maximum participants reached")
  else .ok (registerOk s sender extVal)

/-- The pseudo-random seed of `drawWinner`:
`uint256(keccak256(abi.encodePacked(blockhash(block.number-1),
block.prevrandao, block.timestamp, count, _lastDrawTimestamp)))`. -/
def drawSeed (keccak : List Nat → Nat) (env : BlockEnv) (count lastDraw : Nat) : Nat :=
  keccak [env.blockhashPrev, env.prevrandao, env.timestamp, count, lastDraw] % 2 ^ 256

/-- `uint32(randomSeed % count)`, the cleartext winner slot. -/
def winnerIndexOf (keccak : List Nat → Nat) (env : BlockEnv) (count lastDraw : Nat) : Nat :=
  drawSeed keccak env count lastDraw % count % 2 ^ 32

/-- `keccak256(abi.encode(randomSeed, block.number, blockhash(block.number-1)))`,
the randomness commitment emitted with `WinnerDrawn`. -/
def drawCommitment (keccak : List Nat → Nat) (env : BlockEnv) (count lastDraw : Nat) : Nat :=
  keccak [drawSeed keccak env count lastDraw, env.number, env.blockhashPrev]

/-- One iteration of the draw loop's FHE effect for participant `p` at
loop counter `i`: allocate `FHE.asEuint32(uint32(i))`, allocate
`FHE.eq(_encryptedWinnerIndex, ·)` (handle `hW` holds
`_encryptedWinnerIndex`), then `allowThis` and `allow` the comparison
to `p` and `allow` the winner index to `p`. -/
def drawStep (hW : Nat) (p : Address) (i : Nat) (f : FHEState) : FHEState :=
  let r1 := f.fresh (i % 2 ^ 32)
  let idxH := r1.1
  let r2 := r1.2.fresh (if r1.2.vals hW = r1.2.vals idxH then 1 else 0)
  let isWinner := r2.1
  ((r2.2.allowThis isWinner).allow isWinner p).allow hW p

/-- The draw loop: for each participant, in order, run `drawStep` and
store the freshly allocated comparison handle as the participant's win
status. -/
def drawLoop (hW : Nat) (ps : List Address) (i : Nat)
    (ws : Address → Nat) (f : FHEState) : (Address → Nat) × FHEState :=
  match ps with
  | [] => (ws, f)
  | p :: rest =>
      drawLoop hW rest (i + 1) (upd ws p (f.nextHandle + 1)) (drawStep hW p i f)

/-- The successful branch of `drawWinner`: derive the seed, truncate to a
winner slot, store it encrypted, stamp the draw, run the loop, emit the
commitment. -/
def drawWinnerOk (keccak : List Nat → Nat) (env : BlockEnv) (s : ContractState) :
    ContractState × DrawEvent :=
  let count := s.participants.length
  let winnerIndex := winnerIndexOf keccak env count s.lastDrawTimestamp
  let r1 := s.fhe.fresh winnerIndex
  let hW := r1.1
  let f2 := r1.2.allowThis hW
  let commitment := drawCommitment keccak env count s.lastDrawTimestamp
  let r3 := drawLoop hW s.participants 0 s.winStatus f2
  ({ s with
      encryptedWinnerIndex := hW
      lastDrawTimestamp := env.timestamp
      hasDrawn := true
      winStatus := r3.1
      fhe := r3.2 },
   ⟨commitment, count⟩)

/-- `drawWinner()`: `onlyAdmin` guard, empty-list guard, then the
successful branch. -/
def drawWinner (keccak : List Nat → Nat) (env : BlockEnv) (sender : Address)
    (s : ContractState) : Except Err (ContractState × DrawEvent) :=
  if sender ≠ s.ADMIN_ADDRESS then .error .notAuthorized
  else if s.participants.length = 0 then .error .noParticipants
  else .ok (drawWinnerOk keccak env s)

/-- EVM call semantics for `register`: a revert rolls the state back. -/
def registerCall (s : ContractState) (sender : Address) (extVal : Nat) :
    ContractState × Except Err RegEvent :=
  match register s sender extVal with
  | .ok r => (r.1, .ok r.2)
  | .error e => (s, .error e)

/-- EVM call semantics for `drawWinner`: a revert rolls the state back. -/
def drawWinnerCall (keccak : List Nat → Nat) (env : BlockEnv) (sender : Address)
    (s : ContractState) : ContractState × Except Err DrawEvent :=
  match drawWinner keccak env sender s with
  | .ok r => (r.1, .ok r.2)
  | .error e => (s, .error e)

/-- View `isRegistered(address)`. -/
def ContractState.isRegistered (s : ContractState) (a : Address) : Bool :=
  s.registered a

/-- View `participantCount()`. -/
def ContractState.participantCount (s : ContractState) : Nat :=
  s.participants.length

/-- View `admin()`. -/
def ContractState.admin (s : ContractState) : Address :=
  s.ADMIN_ADDRESS

/-- View `maxParticipants()`. -/
def ContractState.maxParticipants (s : ContractState) : Nat :=
  s.MAX_PARTICIPANTS

/-- View `getEncryptedWinStatus(address)`: reverts `NotRegistered` for
unknown addresses, otherwise returns the win-status handle. -/
def getEncryptedWinStatus (s : ContractState) (a : Address) : Except Err Nat :=
  if s.registered a then .ok (s.winStatus a) else .error .notRegistered

/-- States reachable from a fresh deployment through successful calls
(reverted calls leave the state unchanged by `registerCall` /
`drawWinnerCall`, so they need not appear). -/
inductive Reachable (deployer : Address) (maxParticipants : Nat) : ContractState → Prop where
  | init : Reachable deployer maxParticipants (initialState deployer maxParticipants)
  | step_register {s s' : ContractState} {ev : RegEvent} (sender : Address) (extVal : Nat) :
      Reachable deployer maxParticipants s →
      register s sender extVal = .ok (s', ev) →
      Reachable deployer maxParticipants s'
  | step_draw {s s' : ContractState} {ev : DrawEvent}
      (keccak : List Nat → Nat) (env : BlockEnv) (sender : Address) :
      Reachable deployer maxParticipants s →
      drawWinner keccak env sender s = .ok (s', ev) →
      Reachable deployer maxParticipants s'

/-! ## Facts about one draw-loop iteration -/

@[simp] theorem drawStep_nextHandle (hW : Nat) (p : Address) (i : Nat) (f : FHEState) :
    (drawStep hW p i f).nextHandle = f.nextHandle + 2 := rfl

theorem drawStep_vals (hW : Nat) (p : Address) (i : Nat) (f : FHEState) :
    (drawStep hW p i f).vals =
      upd (upd f.vals f.nextHandle (i % 2 ^ 32)) (f.nextHandle + 1)
        (if upd f.vals f.nextHandle (i % 2 ^ 32) hW = i % 2 ^ 32 then 1 else 0) := by
  simp [drawStep]

theorem drawStep_vals_lt (hW : Nat) (p : Address) (i : Nat) (f : FHEState)
    (h : Nat) (hlt : h < f.nextHandle) :
    (drawStep hW p i f).vals h = f.vals h := by
  rw [drawStep_vals,
    upd_ne _ _ _ _ (by omega : h ≠ f.nextHandle + 1),
    upd_ne _ _ _ _ (by omega : h ≠ f.nextHandle)]

theorem drawStep_vals_new (hW : Nat) (p : Address) (i : Nat) (f : FHEState)
    (hndW : hW < f.nextHandle) :
    (drawStep hW p i f).vals (f.nextHandle + 1) =
      if f.vals hW = i % 2 ^ 32 then 1 else 0 := by
  rw [drawStep_vals, upd_same,
    upd_ne f.vals f.nextHandle (i % 2 ^ 32) hW (by omega : hW ≠ f.nextHandle)]

theorem drawStep_aclUser_true_iff (hW : Nat) (p : Address) (i : Nat) (f : FHEState)
    (h : Nat) (a : Address) :
    ((drawStep hW p i f).aclUser h a = true ↔
      (h = hW ∧ a = p) ∨ (h = f.nextHandle + 1 ∧ a = p) ∨ f.aclUser h a = true) := by
  simp only [drawStep, fresh_fst, fresh_nextHandle]
  rw [allow_aclUser_true_iff, allow_aclUser_true_iff]
  simp only [allowThis_aclUser, fresh_aclUser]

theorem drawStep_aclUser_ne (hW : Nat) (p : Address) (i : Nat) (f : FHEState)
    (h : Nat) (a : Address) (hne1 : h ≠ hW) (hne2 : h ≠ f.nextHandle + 1) :
    (drawStep hW p i f).aclUser h a = f.aclUser h a := by
  simp only [drawStep, fresh_fst, fresh_nextHandle]
  rw [allow_aclUser_ne_handle _ _ _ _ _ hne1, allow_aclUser_ne_handle _ _ _ _ _ hne2]
  simp only [allowThis_aclUser, fresh_aclUser]

theorem drawStep_aclUser_high (hW : Nat) (p : Address) (i : Nat) (f : FHEState)
    (hndW : hW < f.nextHandle)
    (hge : ∀ h a, f.nextHandle ≤ h → f.aclUser h a = false) :
    ∀ h a, (drawStep hW p i f).nextHandle ≤ h → (drawStep hW p i f).aclUser h a = false := by
  intro h a hh
  rw [drawStep_nextHandle] at hh
  rw [drawStep_aclUser_ne hW p i f h a (by omega) (by omega)]
  exact hge h a (by omega)

/-! ## Facts about the draw loop -/

theorem drawLoop_cons (hW : Nat) (p : Address) (rest : List Address) (i : Nat)
    (ws : Address → Nat) (f : FHEState) :
    drawLoop hW (p :: rest) i ws f =
      drawLoop hW rest (i + 1) (upd ws p (f.nextHandle + 1)) (drawStep hW p i f) := rfl

theorem drawLoop_nextHandle (hW : Nat) (ps : List Address) (i : Nat)
    (ws : Address → Nat) (f : FHEState) :
    (drawLoop hW ps i ws f).2.nextHandle = f.nextHandle + 2 * ps.length := by
  induction ps generalizing i ws f with
  | nil => rfl
  | cons p rest ih =>
      rw [drawLoop_cons, ih, drawStep_nextHandle]
      simp only [List.length_cons]
      ring

theorem drawLoop_vals_lt (hW : Nat) (ps : List Address) (i : Nat)
    (ws : Address → Nat) (f : FHEState) (h : Nat) (hlt : h < f.nextHandle) :
    (drawLoop hW ps i ws f).2.vals h = f.vals h := by
  induction ps generalizing i ws f hlt with
  | nil => rfl
  | cons p rest ih =>
      rw [drawLoop_cons,
        ih (i + 1) (upd ws p (f.nextHandle + 1)) (drawStep hW p i f)
          (by rw [drawStep_nextHandle]; omega)]
      exact drawStep_vals_lt hW p i f h hlt

theorem drawLoop_ws_notMem (hW : Nat) (ps : List Address) (i : Nat)
    (ws : Address → Nat) (f : FHEState) (p : Address) (hp : p ∉ ps) :
    (drawLoop hW ps i ws f).1 p = ws p := by
  induction ps generalizing i ws f with
  | nil => rfl
  | cons q rest ih =>
      rw [drawLoop_cons, ih]
      · exact upd_ne _ _ _ _ (by simp at hp; exact hp.1)
      · simp at hp; exact hp.2

theorem drawLoop_aclUser_lt (hW : Nat) (ps : List Address) (i : Nat)
    (ws : Address → Nat) (f : FHEState) (h : Nat) (a : Address)
    (hlt : h < f.nextHandle) (hne : h ≠ hW) :
    (drawLoop hW ps i ws f).2.aclUser h a = f.aclUser h a := by
  induction ps generalizing i ws f hlt with
  | nil => rfl
  | cons q rest ih =>
      rw [drawLoop_cons,
        ih (i + 1) (upd ws q (f.nextHandle + 1)) (drawStep hW q i f)
          (by rw [drawStep_nextHandle]; omega)]
      exact drawStep_aclUser_ne hW q i f h a hne (by omega)

theorem drawLoop_aclUser_hW (hW : Nat) (ps : List Address) (i : Nat)
    (ws : Address → Nat) (f : FHEState) (a : Address) (hndW : hW < f.nextHandle) :
    ((drawLoop hW ps i ws f).2.aclUser hW a = true ↔
      f.aclUser hW a = true ∨ a ∈ ps) := by
  induction ps generalizing i ws f hndW with
  | nil => simp [drawLoop]
  | cons q rest ih =>
      rw [drawLoop_cons,
        ih (i + 1) (upd ws q (f.nextHandle + 1)) (drawStep hW q i f)
          (by rw [drawStep_nextHandle]; omega),
        drawStep_aclUser_true_iff]
      have hne : hW ≠ f.nextHandle + 1 := by omega
      simp only [List.mem_cons]
      tauto

theorem drawLoop_aclUser_high (hW : Nat) (ps : List Address) (i : Nat)
    (ws : Address → Nat) (f : FHEState) (hndW : hW < f.nextHandle)
    (hge : ∀ h a, f.nextHandle ≤ h → f.aclUser h a = false) :
    ∀ h a, f.nextHandle + 2 * ps.length ≤ h →
      (drawLoop hW ps i ws f).2.aclUser h a = false := by
  induction ps generalizing i ws f hndW hge with
  | nil => intro h a hh; exact hge h a (by simpa using hh)
  | cons q rest ih =>
      intro h a hh
      rw [drawLoop_cons]
      refine ih (i + 1) (upd ws q (f.nextHandle + 1)) (drawStep hW q i f)
        (by rw [drawStep_nextHandle]; omega)
        (drawStep_aclUser_high hW q i f hndW hge) h a ?_
      rw [drawStep_nextHandle]
      simp only [List.length_cons] at hh
      omega

theorem drawLoop_ws_get (hW : Nat) (ps : List Address) (i : Nat)
    (ws : Address → Nat) (f : FHEState) (nd : ps.Nodup) :
    ∀ j (hj : j < ps.length),
      (drawLoop hW ps i ws f).1 (ps.get ⟨j, hj⟩) = f.nextHandle + 2 * j + 1 := by
  induction ps generalizing i ws f with
  | nil => intro j hj; simp at hj
  | cons q rest ih =>
      intro j hj
      rw [drawLoop_cons]
      cases j with
      | zero =>
          have hget : (q :: rest).get ⟨0, hj⟩ = q := rfl
          rw [hget, drawLoop_ws_notMem _ _ _ _ _ _ (List.nodup_cons.mp nd).1, upd_same]
      | succ k =>
          have hk : k < rest.length := by simpa using hj
          have hget : (q :: rest).get ⟨k + 1, hj⟩ = rest.get ⟨k, hk⟩ := rfl
          rw [hget, ih (i + 1) (upd ws q (f.nextHandle + 1)) (drawStep hW q i f)
            (List.nodup_cons.mp nd).2 k hk, drawStep_nextHandle]
          ring

theorem drawLoop_vals_new (hW : Nat) (ps : List Address) (i : Nat)
    (ws : Address → Nat) (f : FHEState) (hndW : hW < f.nextHandle) :
    ∀ j, j < ps.length →
      (drawLoop hW ps i ws f).2.vals (f.nextHandle + 2 * j + 1) =
        if f.vals hW = (i + j) % 2 ^ 32 then 1 else 0 := by
  induction ps generalizing i ws f hndW with
  | nil => intro j hj; simp at hj
  | cons q rest ih =>
      intro j hj
      rw [drawLoop_cons]
      cases j with
      | zero =>
          rw [show f.nextHandle + 2 * 0 + 1 = f.nextHandle + 1 by ring,
            drawLoop_vals_lt _ _ _ _ _ _ (by rw [drawStep_nextHandle]; omega),
            drawStep_vals_new hW q i f hndW]
          simp
      | succ k =>
          have hk : k < rest.length := by simpa using hj
          have hh : f.nextHandle + 2 * (k + 1) + 1 =
              (drawStep hW q i f).nextHandle + 2 * k + 1 := by
            rw [drawStep_nextHandle]; ring
          have hv : (drawStep hW q i f).vals hW = f.vals hW :=
            drawStep_vals_lt hW q i f hW hndW
          rw [hh, ih (i + 1) (upd ws q (f.nextHandle + 1)) (drawStep hW q i f)
            (by rw [drawStep_nextHandle]; omega) k hk, hv,
            show i + 1 + k = i + (k + 1) by ring]

theorem drawLoop_aclUser_new (hW : Nat) (ps : List Address) (i : Nat)
    (ws : Address → Nat) (f : FHEState) (hndW : hW < f.nextHandle)
    (hge : ∀ h a, f.nextHandle ≤ h → f.aclUser h a = false) :
    ∀ j (hj : j < ps.length) (a : Address),
      ((drawLoop hW ps i ws f).2.aclUser (f.nextHandle + 2 * j + 1) a = true ↔
        a = ps.get ⟨j, hj⟩) := by
  induction ps generalizing i ws f hndW hge with
  | nil => intro j hj; simp at hj
  | cons q rest ih =>
      intro j hj a
      rw [drawLoop_cons]
      cases j with
      | zero =>
          have hget : (q :: rest).get ⟨0, hj⟩ = q := rfl
          rw [hget,
            drawLoop_aclUser_lt _ _ _ _ _ _ _ (by rw [drawStep_nextHandle]; omega)
              (by omega),
            drawStep_aclUser_true_iff]
          have h1 : ¬ (f.nextHandle + 2 * 0 + 1 = hW ∧ a = q) := by
            rintro ⟨h, -⟩; omega
          have h2 : f.nextHandle + 2 * 0 + 1 = f.nextHandle + 1 := by ring
          have h3 : f.aclUser (f.nextHandle + 2 * 0 + 1) a = false :=
            hge _ _ (by omega)
          rw [h3]
          simp only [h2]
          tauto
      | succ k =>
          have hk : k < rest.length := by simpa using hj
          have hget : (q :: rest).get ⟨k + 1, hj⟩ = rest.get ⟨k, hk⟩ := rfl
          have hh : f.nextHandle + 2 * (k + 1) + 1 =
              (drawStep hW q i f).nextHandle + 2 * k + 1 := by
            rw [drawStep_nextHandle]; ring
          rw [hget, hh,
            ih (i + 1) (upd ws q (f.nextHandle + 1)) (drawStep hW q i f)
              (by rw [drawStep_nextHandle]; omega)
              (drawStep_aclUser_high hW q i f hndW hge) k hk a]

/-! ## Characterisation of `register` -/

theorem register_error_already (s : ContractState) (sender : Address) (extVal : Nat)
    (h : s.registered sender = true) :
    register s sender extVal = .error .alreadyRegistered := by
  simp [register, h]

theorem register_error_full (s : ContractState) (sender : Address) (extVal : Nat)
    (h : s.registered sender = false) (hfull : s.MAX_PARTICIPANTS ≤ s.participants.length) :
    register s sender extVal = .error (.reverted "Maximum participants reached") := by
  simp [register, h, hfull]

theorem register_eq_ok (s : ContractState) (sender : Address) (extVal : Nat)
    (h : s.registered sender = false) (hroom : s.participants.length < s.MAX_PARTICIPANTS) :
    register s sender extVal = .ok (registerOk s sender extVal) := by
  simp [register, h, Nat.not_le.mpr hroom]

theorem register_ok_inv (s : ContractState) (sender : Address) (extVal : Nat)
    (s' : ContractState) (ev : RegEvent)
    (h : register s sender extVal = .ok (s', ev)) :
    s.registered sender = false ∧ s.participants.length < s.MAX_PARTICIPANTS ∧
      (s', ev) = registerOk s sender extVal := by
  by_cases h1 : s.registered sender
  · rw [register_error_already s sender extVal h1] at h; cases h
  · by_cases h2 : s.MAX_PARTICIPANTS ≤ s.participants.length
    · rw [register_error_full s sender extVal (by simpa using h1) h2] at h; cases h
    · refine ⟨by simpa using h1, by omega, ?_⟩
      rw [register_eq_ok s sender extVal (by simpa using h1) (by omega)] at h
      exact (Except.ok.injEq _ _).mp h.symm |>.symm ▸ by
        cases h' : registerOk s sender extVal
        simp [h'] at h
        simp [h.1, h.2, h']

@[simp] theorem registerOk_participants (s : ContractState) (sender : Address) (extVal : Nat) :
    (registerOk s sender extVal).1.participants = s.participants ++ [sender] := rfl

@[simp] theorem registerOk_registered (s : ContractState) (sender : Address) (extVal : Nat) :
    (registerOk s sender extVal).1.registered = upd s.registered sender true := rfl

@[simp] theorem registerOk_indices (s : ContractState) (sender : Address) (extVal : Nat) :
    (registerOk s sender extVal).1.indices =
      upd s.indices sender (s.participants.length % 2 ^ 32) := by
  have : (s.participants ++ [sender]).length - 1 = s.participants.length := by simp
  simp [registerOk, this]

@[simp] theorem registerOk_encryptedIds (s : ContractState) (sender : Address) (extVal : Nat) :
    (registerOk s sender extVal).1.encryptedIds =
      upd s.encryptedIds sender s.fhe.nextHandle := rfl

@[simp] theorem registerOk_winStatus (s : ContractState) (sender : Address) (extVal : Nat) :
    (registerOk s sender extVal).1.winStatus =
      upd s.winStatus sender (s.fhe.nextHandle + 1) := rfl

@[simp] theorem registerOk_encryptedWinnerIndex (s : ContractState) (sender : Address)
    (extVal : Nat) :
    (registerOk s sender extVal).1.encryptedWinnerIndex = s.encryptedWinnerIndex := rfl

@[simp] theorem registerOk_hasDrawn (s : ContractState) (sender : Address) (extVal : Nat) :
    (registerOk s sender extVal).1.hasDrawn = s.hasDrawn := rfl

@[simp] theorem registerOk_lastDrawTimestamp (s : ContractState) (sender : Address)
    (extVal : Nat) :
    (registerOk s sender extVal).1.lastDrawTimestamp = s.lastDrawTimestamp := rfl

@[simp] theorem registerOk_ADMIN (s : ContractState) (sender : Address) (extVal : Nat) :
    (registerOk s sender extVal).1.ADMIN_ADDRESS = s.ADMIN_ADDRESS := rfl

@[simp] theorem registerOk_MAX (s : ContractState) (sender : Address) (extVal : Nat) :
    (registerOk s sender extVal).1.MAX_PARTICIPANTS = s.MAX_PARTICIPANTS := rfl

@[simp] theorem registerOk_event (s : ContractState) (sender : Address) (extVal : Nat) :
    (registerOk s sender extVal).2 = ⟨sender, s.participants.length % 2 ^ 32⟩ := by
  have : (s.participants ++ [sender]).length - 1 = s.participants.length := by simp
  simp [registerOk, this]

@[simp] theorem registerOk_fhe_nextHandle (s : ContractState) (sender : Address)
    (extVal : Nat) :
    (registerOk s sender extVal).1.fhe.nextHandle = s.fhe.nextHandle + 2 := by
  by_cases h : s.hasDrawn <;>
    simp [registerOk, FHEState.fresh, FHEState.allow, FHEState.allowThis, h]

@[simp] theorem registerOk_fhe_vals (s : ContractState) (sender : Address) (extVal : Nat) :
    (registerOk s sender extVal).1.fhe.vals =
      upd (upd s.fhe.vals s.fhe.nextHandle (extVal % 2 ^ 32)) (s.fhe.nextHandle + 1) 0 := by
  by_cases h : s.hasDrawn <;>
    simp [registerOk, FHEState.fresh, FHEState.allow, FHEState.allowThis, h]

theorem registerOk_fhe_aclUser (s : ContractState) (sender : Address) (extVal : Nat)
    (h : Nat) (a : Address) :
    ((registerOk s sender extVal).1.fhe.aclUser h a = true ↔
      (s.hasDrawn = true ∧ h = s.encryptedWinnerIndex ∧ a = sender) ∨
      (h = s.fhe.nextHandle + 1 ∧ a = sender) ∨
      (h = s.fhe.nextHandle ∧ a = sender) ∨
      s.fhe.aclUser h a = true) := by
  by_cases hd : s.hasDrawn
  · simp only [registerOk, hd, if_true, fresh_fst, allow_nextHandle, allowThis_nextHandle,
      fresh_nextHandle]
    rw [allow_aclUser_true_iff, allow_aclUser_true_iff]
    simp only [allowThis_aclUser, fresh_aclUser]
    rw [allow_aclUser_true_iff]
    simp only [allowThis_aclUser, fresh_aclUser]
    tauto
  · simp only [registerOk, hd, if_false, Bool.false_eq_true, fresh_fst, allow_nextHandle,
      allowThis_nextHandle, fresh_nextHandle]
    rw [allow_aclUser_true_iff]
    simp only [allowThis_aclUser, fresh_aclUser]
    rw [allow_aclUser_true_iff]
    simp only [allowThis_aclUser, fresh_aclUser]
    have hne : s.hasDrawn ≠ true := by simpa using hd
    tauto

/-! ## Characterisation of `drawWinner` -/

theorem drawWinner_error_auth (keccak : List Nat → Nat) (env : BlockEnv)
    (sender : Address) (s : ContractState) (h : sender ≠ s.ADMIN_ADDRESS) :
    drawWinner keccak env sender s = .error .notAuthorized := by
  simp [drawWinner, h]

theorem drawWinner_error_empty (keccak : List Nat → Nat) (env : BlockEnv)
    (sender : Address) (s : ContractState) (h : sender = s.ADMIN_ADDRESS)
    (hempty : s.participants.length = 0) :
    drawWinner keccak env sender s = .error .noParticipants := by
  simp [drawWinner, h, hempty]

theorem drawWinner_eq_ok (keccak : List Nat → Nat) (env : BlockEnv)
    (sender : Address) (s : ContractState) (h : sender = s.ADMIN_ADDRESS)
    (hne : s.participants.length ≠ 0) :
    drawWinner keccak env sender s = .ok (drawWinnerOk keccak env s) := by
  simp [drawWinner, h, hne]

theorem drawWinner_ok_inv (keccak : List Nat → Nat) (env : BlockEnv)
    (sender : Address) (s : ContractState) (s' : ContractState) (ev : DrawEvent)
    (h : drawWinner keccak env sender s = .ok (s', ev)) :
    sender = s.ADMIN_ADDRESS ∧ s.participants.length ≠ 0 ∧
      (s', ev) = drawWinnerOk keccak env s := by
  by_cases h1 : sender = s.ADMIN_ADDRESS
  · by_cases h2 : s.participants.length = 0
    · rw [drawWinner_error_empty keccak env sender s h1 h2] at h; cases h
    · rw [drawWinner_eq_ok keccak env sender s h1 h2] at h
      exact ⟨h1, h2, by
        cases h' : drawWinnerOk keccak env s
        simp [h'] at h
        simp [h.1, h.2]⟩
  · rw [drawWinner_error_auth keccak env sender s h1] at h; cases h

@[simp] theorem drawWinnerOk_participants (keccak : List Nat → Nat) (env : BlockEnv)
    (s : ContractState) :
    (drawWinnerOk keccak env s).1.participants = s.participants := rfl

@[simp] theorem drawWinnerOk_registered (keccak : List Nat → Nat) (env : BlockEnv)
    (s : ContractState) :
    (drawWinnerOk keccak env s).1.registered = s.registered := rfl

@[simp] theorem drawWinnerOk_indices (keccak : List Nat → Nat) (env : BlockEnv)
    (s : ContractState) :
    (drawWinnerOk keccak env s).1.indices = s.indices := rfl

@[simp] theorem drawWinnerOk_encryptedIds (keccak : List Nat → Nat) (env : BlockEnv)
    (s : ContractState) :
    (drawWinnerOk keccak env s).1.encryptedIds = s.encryptedIds := rfl

@[simp] theorem drawWinnerOk_encryptedWinnerIndex (keccak : List Nat → Nat) (env : BlockEnv)
    (s : ContractState) :
    (drawWinnerOk keccak env s).1.encryptedWinnerIndex = s.fhe.nextHandle := rfl

@[simp] theorem drawWinnerOk_hasDrawn (keccak : List Nat → Nat) (env : BlockEnv)
    (s : ContractState) :
    (drawWinnerOk keccak env s).1.hasDrawn = true := rfl

@[simp] theorem drawWinnerOk_lastDrawTimestamp (keccak : List Nat → Nat) (env : BlockEnv)
    (s : ContractState) :
    (drawWinnerOk keccak env s).1.lastDrawTimestamp = env.timestamp := rfl

@[simp] theorem drawWinnerOk_ADMIN (keccak : List Nat → Nat) (env : BlockEnv)
    (s : ContractState) :
    (drawWinnerOk keccak env s).1.ADMIN_ADDRESS = s.ADMIN_ADDRESS := rfl

@[simp] theorem drawWinnerOk_MAX (keccak : List Nat → Nat) (env : BlockEnv)
    (s : ContractState) :
    (drawWinnerOk keccak env s).1.MAX_PARTICIPANTS = s.MAX_PARTICIPANTS := rfl

@[simp] theorem drawWinnerOk_event (keccak : List Nat → Nat) (env : BlockEnv)
    (s : ContractState) :
    (drawWinnerOk keccak env s).2 =
      ⟨drawCommitment keccak env s.participants.length s.lastDrawTimestamp,
       s.participants.length⟩ := rfl

theorem drawWinnerOk_fhe (keccak : List Nat → Nat) (env : BlockEnv) (s : ContractState) :
    (drawWinnerOk keccak env s).1.fhe =
      (drawLoop s.fhe.nextHandle s.participants 0 s.winStatus
        ((s.fhe.fresh
          (winnerIndexOf keccak env s.participants.length s.lastDrawTimestamp)).2.allowThis
          s.fhe.nextHandle)).2 := rfl

theorem drawWinnerOk_winStatus (keccak : List Nat → Nat) (env : BlockEnv)
    (s : ContractState) :
    (drawWinnerOk keccak env s).1.winStatus =
      (drawLoop s.fhe.nextHandle s.participants 0 s.winStatus
        ((s.fhe.fresh
          (winnerIndexOf keccak env s.participants.length s.lastDrawTimestamp)).2.allowThis
          s.fhe.nextHandle)).1 := rfl

theorem drawWinnerOk_fhe_nextHandle (keccak : List Nat → Nat) (env : BlockEnv)
    (s : ContractState) :
    (drawWinnerOk keccak env s).1.fhe.nextHandle =
      s.fhe.nextHandle + 1 + 2 * s.participants.length := by
  rw [drawWinnerOk_fhe, drawLoop_nextHandle]
  simp

theorem drawWinnerOk_vals_winner (keccak : List Nat → Nat) (env : BlockEnv)
    (s : ContractState) :
    (drawWinnerOk keccak env s).1.fhe.vals s.fhe.nextHandle =
      winnerIndexOf keccak env s.participants.length s.lastDrawTimestamp := by
  rw [drawWinnerOk_fhe, drawLoop_vals_lt]
  · simp
  · simp

theorem drawWinnerOk_vals_lt (keccak : List Nat → Nat) (env : BlockEnv)
    (s : ContractState) (h : Nat) (hlt : h < s.fhe.nextHandle) :
    (drawWinnerOk keccak env s).1.fhe.vals h = s.fhe.vals h := by
  rw [drawWinnerOk_fhe, drawLoop_vals_lt]
  · simp only [allowThis_vals, fresh_vals]
    exact upd_ne _ _ _ _ (by omega)
  · simp only [allowThis_nextHandle, fresh_nextHandle]
    omega

theorem drawWinnerOk_ws_notMem (keccak : List Nat → Nat) (env : BlockEnv)
    (s : ContractState) (p : Address) (hp : p ∉ s.participants) :
    (drawWinnerOk keccak env s).1.winStatus p = s.winStatus p := by
  rw [drawWinnerOk_winStatus, drawLoop_ws_notMem]
  exact hp

theorem drawWinnerOk_ws_get (keccak : List Nat → Nat) (env : BlockEnv)
    (s : ContractState) (nd : s.participants.Nodup) :
    ∀ j (hj : j < s.participants.length),
      (drawWinnerOk keccak env s).1.winStatus (s.participants.get ⟨j, hj⟩) =
        s.fhe.nextHandle + 1 + 2 * j + 1 := by
  intro j hj
  rw [drawWinnerOk_winStatus, drawLoop_ws_get _ _ _ _ _ nd j hj]
  simp only [allowThis_nextHandle, fresh_nextHandle]

theorem drawWinnerOk_vals_ws (keccak : List Nat → Nat) (env : BlockEnv)
    (s : ContractState) :
    ∀ j, j < s.participants.length →
      (drawWinnerOk keccak env s).1.fhe.vals (s.fhe.nextHandle + 1 + 2 * j + 1) =
        if winnerIndexOf keccak env s.participants.length s.lastDrawTimestamp = j % 2 ^ 32
        then 1 else 0 := by
  intro j hj
  rw [drawWinnerOk_fhe]
  have := drawLoop_vals_new s.fhe.nextHandle s.participants 0 s.winStatus
    ((s.fhe.fresh
      (winnerIndexOf keccak env s.participants.length s.lastDrawTimestamp)).2.allowThis
      s.fhe.nextHandle)
    (by simp only [allowThis_nextHandle, fresh_nextHandle]; omega) j hj
  simp only [allowThis_nextHandle, fresh_nextHandle, allowThis_vals, fresh_vals,
    upd_same, Nat.zero_add] at this
  exact this

theorem drawWinnerOk_aclUser_lt (keccak : List Nat → Nat) (env : BlockEnv)
    (s : ContractState) (h : Nat) (a : Address) (hlt : h < s.fhe.nextHandle) :
    (drawWinnerOk keccak env s).1.fhe.aclUser h a = s.fhe.aclUser h a := by
  rw [drawWinnerOk_fhe, drawLoop_aclUser_lt]
  · simp only [allowThis_aclUser, fresh_aclUser]
  · simp only [allowThis_nextHandle, fresh_nextHandle]; omega
  · omega

theorem drawWinnerOk_aclUser_new (keccak : List Nat → Nat) (env : BlockEnv)
    (s : ContractState)
    (hge : ∀ h a, s.fhe.nextHandle ≤ h → s.fhe.aclUser h a = false) :
    ∀ j (hj : j < s.participants.length) (a : Address),
      ((drawWinnerOk keccak env s).1.fhe.aclUser (s.fhe.nextHandle + 1 + 2 * j + 1) a
        = true ↔ a = s.participants.get ⟨j, hj⟩) := by
  intro j hj a
  rw [drawWinnerOk_fhe]
  have := drawLoop_aclUser_new s.fhe.nextHandle s.participants 0 s.winStatus
    ((s.fhe.fresh
      (winnerIndexOf keccak env s.participants.length s.lastDrawTimestamp)).2.allowThis
      s.fhe.nextHandle)
    (by simp only [allowThis_nextHandle, fresh_nextHandle]; omega)
    (by intro h2 a2 hh2
        simp only [allowThis_aclUser, fresh_aclUser]
        simp only [allowThis_nextHandle, fresh_nextHandle] at hh2
        exact hge h2 a2 (by omega)) j hj a
  simp only [allowThis_nextHandle, fresh_nextHandle] at this
  exact this

theorem drawWinnerOk_aclUser_high (keccak : List Nat → Nat) (env : BlockEnv)
    (s : ContractState)
    (hge : ∀ h a, s.fhe.nextHandle ≤ h → s.fhe.aclUser h a = false) :
    ∀ h a, s.fhe.nextHandle + 1 + 2 * s.participants.length ≤ h →
      (drawWinnerOk keccak env s).1.fhe.aclUser h a = false := by
  intro h a hh
  rw [drawWinnerOk_fhe]
  refine drawLoop_aclUser_high s.fhe.nextHandle s.participants 0 s.winStatus
    _ (by simp only [allowThis_nextHandle, fresh_nextHandle]; omega)
    (by intro h2 a2 hh2
        simp only [allowThis_aclUser, fresh_aclUser]
        simp only [allowThis_nextHandle, fresh_nextHandle] at hh2
        exact hge h2 a2 (by omega)) h a ?_
  simp only [allowThis_nextHandle, fresh_nextHandle]
  omega

/-! ## The inductive state invariant -/

/-- The invariant maintained by every contract operation: the admin and
cap are the construction parameters, the participant list respects the
cap and has no duplicates, `_registered` is its membership predicate,
all stored ciphertext handles are allocated, the win-status handles of
distinct participants are distinct and distinct from the winner-index
and identifier handles, a win-status handle is user-granted only to its
owner, and unallocated handles carry no user grants. -/
structure Inv (deployer : Address) (m : Nat) (s : ContractState) : Prop where
  admin_eq : s.ADMIN_ADDRESS = deployer
  max_eq : s.MAX_PARTICIPANTS = m
  len_le : s.participants.length ≤ m
  nodup : s.participants.Nodup
  reg_mem : ∀ a, s.registered a = true ↔ a ∈ s.participants
  hpos : 1 ≤ s.fhe.nextHandle
  widx_lt : s.encryptedWinnerIndex < s.fhe.nextHandle
  ws_lt : ∀ p, s.registered p = true → s.winStatus p < s.fhe.nextHandle
  id_lt : ∀ p, s.registered p = true → s.encryptedIds p < s.fhe.nextHandle
  ws_inj : ∀ p q, s.registered p = true → s.registered q = true → p ≠ q →
    s.winStatus p ≠ s.winStatus q
  ws_ne_widx : ∀ p, s.registered p = true → s.winStatus p ≠ s.encryptedWinnerIndex
  ws_ne_id : ∀ p q, s.registered p = true → s.registered q = true →
    s.winStatus p ≠ s.encryptedIds q
  ws_acl : ∀ p a, s.registered p = true → s.fhe.aclUser (s.winStatus p) a = true → a = p
  acl_high : ∀ h a, s.fhe.nextHandle ≤ h → s.fhe.aclUser h a = false

theorem inv_initial (deployer : Address) (m : Nat) :
    Inv deployer m (initialState deployer m) := by
  refine ⟨rfl, rfl, by simp [initialState], by simp [initialState], ?_, ?_, ?_, ?_, ?_,
    ?_, ?_, ?_, ?_, ?_⟩ <;> simp [initialState]

theorem inv_register (deployer : Address) (m : Nat) (s s' : ContractState)
    (sender : Address) (extVal : Nat) (ev : RegEvent) (hInv : Inv deployer m s)
    (hok : register s sender extVal = .ok (s', ev)) : Inv deployer m s' := by
  obtain ⟨hreg, hroom, heq⟩ := register_ok_inv s sender extVal s' ev hok
  have hs' : s' = (registerOk s sender extVal).1 := by rw [← heq]
  subst hs'
  have hnotmem : sender ∉ s.participants := fun hmem => by
    have := (hInv.reg_mem sender).mpr hmem
    rw [hreg] at this
    cases this
  have hregd : ∀ p, upd s.registered sender true p = true ↔
      (p = sender ∨ s.registered p = true) := by
    intro p
    by_cases hp : p = sender
    · subst hp; simp
    · simp [upd_ne _ _ _ _ hp, hp]
  constructor
  case admin_eq => simpa using hInv.admin_eq
  case max_eq => simpa using hInv.max_eq
  case len_le =>
      have := hInv.max_eq
      simp only [registerOk_participants, List.length_append, List.length_singleton]
      omega
  case nodup =>
      simp only [registerOk_participants]
      rw [List.nodup_append]
      exact ⟨hInv.nodup, List.nodup_singleton sender, by
        intro a ha hb
        simp at hb
        subst hb
        exact hnotmem ha⟩
  case reg_mem =>
      intro a
      simp only [registerOk_participants, registerOk_registered, List.mem_append,
        List.mem_singleton]
      rw [hregd a, ← hInv.reg_mem a]
      tauto
  case hpos => simp only [registerOk_fhe_nextHandle]; omega
  case widx_lt =>
      have := hInv.widx_lt
      simp only [registerOk_fhe_nextHandle, registerOk_encryptedWinnerIndex]
      omega
  case ws_lt =>
      intro p hp
      simp only [registerOk_fhe_nextHandle, registerOk_winStatus]
      rcases (hregd p).mp (by simpa using hp) with h | h
      · subst h; rw [upd_same]; omega
      · have := hInv.ws_lt p h
        have hps : p ≠ sender := fun hc => by rw [hc, hreg] at h; cases h
        rw [upd_ne _ _ _ _ hps]
        omega
  case id_lt =>
      intro p hp
      simp only [registerOk_fhe_nextHandle, registerOk_encryptedIds]
      rcases (hregd p).mp (by simpa using hp) with h | h
      · subst h; rw [upd_same]; omega
      · have := hInv.id_lt p h
        have hps : p ≠ sender := fun hc => by rw [hc, hreg] at h; cases h
        rw [upd_ne _ _ _ _ hps]
        omega
  case ws_inj =>
      intro p q hp hq hpq
      simp only [registerOk_winStatus]
      rcases (hregd p).mp (by simpa using hp) with h1 | h1 <;>
        rcases (hregd q).mp (by simpa using hq) with h2 | h2
      · exact absurd (h1.trans h2.symm) hpq
      · have hqs : q ≠ sender := fun hc => by rw [hc, hreg] at h2; cases h2
        rw [h1, upd_same, upd_ne _ _ _ _ hqs]
        have := hInv.ws_lt q h2
        omega
      · have hps : p ≠ sender := fun hc => by rw [hc, hreg] at h1; cases h1
        rw [h2, upd_same, upd_ne _ _ _ _ hps]
        have := hInv.ws_lt p h1
        omega
      · have hps : p ≠ sender := fun hc => by rw [hc, hreg] at h1; cases h1
        have hqs : q ≠ sender := fun hc => by rw [hc, hreg] at h2; cases h2
        rw [upd_ne _ _ _ _ hps, upd_ne _ _ _ _ hqs]
        exact hInv.ws_inj p q h1 h2 hpq
  case ws_ne_widx =>
      intro p hp
      simp only [registerOk_winStatus, registerOk_encryptedWinnerIndex]
      rcases (hregd p).mp (by simpa using hp) with h | h
      · subst h
        rw [upd_same]
        have := hInv.widx_lt
        omega
      · have hps : p ≠ sender := fun hc => by rw [hc, hreg] at h; cases h
        rw [upd_ne _ _ _ _ hps]
        exact hInv.ws_ne_widx p h
  case ws_ne_id =>
      intro p q hp hq
      simp only [registerOk_winStatus, registerOk_encryptedIds]
      rcases (hregd p).mp (by simpa using hp) with h1 | h1 <;>
        rcases (hregd q).mp (by simpa using hq) with h2 | h2
      · rw [h1, h2, upd_same, upd_same]
        omega
      · have hqs : q ≠ sender := fun hc => by rw [hc, hreg] at h2; cases h2
        rw [h1, upd_same, upd_ne _ _ _ _ hqs]
        have := hInv.id_lt q h2
        omega
      · have hps : p ≠ sender := fun hc => by rw [hc, hreg] at h1; cases h1
        rw [h2, upd_ne _ _ _ _ hps, upd_same]
        have := hInv.ws_lt p h1
        omega
      · have hps : p ≠ sender := fun hc => by rw [hc, hreg] at h1; cases h1
        have hqs : q ≠ sender := fun hc => by rw [hc, hreg] at h2; cases h2
        rw [upd_ne _ _ _ _ hps, upd_ne _ _ _ _ hqs]
        exact hInv.ws_ne_id p q h1 h2
  case ws_acl =>
      intro p a hp hacl
      simp only [registerOk_winStatus] at hacl
      rw [registerOk_fhe_aclUser] at hacl
      rcases (hregd p).mp (by simpa using hp) with h | h
      · subst h
        rw [upd_same] at hacl
        rcases hacl with ⟨-, hw, -⟩ | ⟨-, ha⟩ | ⟨hw, -⟩ | hold
        · exact absurd hw (by have := hInv.widx_lt; omega)
        · exact ha
        · omega
        · exact absurd hold (by
            rw [hInv.acl_high (s.fhe.nextHandle + 1) a (by omega)]
            simp)
      · have hps : p ≠ sender := fun hc => by rw [hc, hreg] at h; cases h
        rw [upd_ne _ _ _ _ hps] at hacl
        rcases hacl with ⟨-, hw, -⟩ | ⟨hw, -⟩ | ⟨hw, -⟩ | hold
        · exact absurd hw (hInv.ws_ne_widx p h)
        · exact absurd hw (by have := hInv.ws_lt p h; omega)
        · exact absurd hw (by have := hInv.ws_lt p h; omega)
        · exact hInv.ws_acl p a h hold
  case acl_high =>
      intro h a hh
      simp only [registerOk_fhe_nextHandle] at hh
      rw [← Bool.not_eq_true, registerOk_fhe_aclUser]
      rintro (⟨-, hw, -⟩ | ⟨hw, -⟩ | ⟨hw, -⟩ | hold)
      · have := hInv.widx_lt; omega
      · omega
      · omega
      · rw [hInv.acl_high h a (by omega)] at hold
        cases hold

theorem inv_draw (deployer : Address) (m : Nat) (s s' : ContractState)
    (keccak : List Nat → Nat) (env : BlockEnv) (sender : Address) (ev : DrawEvent)
    (hInv : Inv deployer m s)
    (hok : drawWinner keccak env sender s = .ok (s', ev)) : Inv deployer m s' := by
  obtain ⟨hadm, hne, heq⟩ := drawWinner_ok_inv keccak env sender s s' ev hok
  have hs' : s' = (drawWinnerOk keccak env s).1 := by rw [← heq]
  subst hs'
  have hmem_get : ∀ p, s.registered p = true →
      ∃ j : Fin s.participants.length, s.participants.get j = p := by
    intro p hp
    exact List.mem_iff_get.mp ((hInv.reg_mem p).mp hp)
  constructor
  case admin_eq => simpa using hInv.admin_eq
  case max_eq => simpa using hInv.max_eq
  case len_le => simpa using hInv.len_le
  case nodup => simpa using hInv.nodup
  case reg_mem => simpa using hInv.reg_mem
  case hpos =>
      have := hInv.hpos
      rw [drawWinnerOk_fhe_nextHandle]
      omega
  case widx_lt =>
      rw [drawWinnerOk_fhe_nextHandle, drawWinnerOk_encryptedWinnerIndex]
      omega
  case ws_lt =>
      intro p hp
      rw [drawWinnerOk_fhe_nextHandle]
      obtain ⟨⟨j, hj⟩, hget⟩ := hmem_get p (by simpa using hp)
      rw [← hget, drawWinnerOk_ws_get keccak env s hInv.nodup j hj]
      omega
  case id_lt =>
      intro p hp
      rw [drawWinnerOk_fhe_nextHandle, drawWinnerOk_encryptedIds]
      have := hInv.id_lt p (by simpa using hp)
      omega
  case ws_inj =>
      intro p q hp hq hpq
      obtain ⟨⟨j1, hj1⟩, hget1⟩ := hmem_get p (by simpa using hp)
      obtain ⟨⟨j2, hj2⟩, hget2⟩ := hmem_get q (by simpa using hq)
      rw [← hget1, ← hget2, drawWinnerOk_ws_get keccak env s hInv.nodup j1 hj1,
        drawWinnerOk_ws_get keccak env s hInv.nodup j2 hj2]
      have hj12 : j1 ≠ j2 := fun hc => hpq (by rw [← hget1, ← hget2]; subst hc; rfl)
      omega
  case ws_ne_widx =>
      intro p hp
      rw [drawWinnerOk_encryptedWinnerIndex]
      obtain ⟨⟨j, hj⟩, hget⟩ := hmem_get p (by simpa using hp)
      rw [← hget, drawWinnerOk_ws_get keccak env s hInv.nodup j hj]
      omega
  case ws_ne_id =>
      intro p q hp hq
      rw [drawWinnerOk_encryptedIds]
      obtain ⟨⟨j, hj⟩, hget⟩ := hmem_get p (by simpa using hp)
      rw [← hget, drawWinnerOk_ws_get keccak env s hInv.nodup j hj]
      have := hInv.id_lt q (by simpa using hq)
      omega
  case ws_acl =>
      intro p a hp hacl
      obtain ⟨⟨j, hj⟩, hget⟩ := hmem_get p (by simpa using hp)
      rw [← hget, drawWinnerOk_ws_get keccak env s hInv.nodup j hj] at hacl
      have := (drawWinnerOk_aclUser_new keccak env s hInv.acl_high j hj a).mp hacl
      rw [← hget]
      exact this
  case acl_high =>
      intro h a hh
      rw [drawWinnerOk_fhe_nextHandle] at hh
      exact drawWinnerOk_aclUser_high keccak env s hInv.acl_high h a (by omega)

theorem reachable_inv (deployer : Address) (m : Nat) (s : ContractState)
    (hs : Reachable deployer m s) : Inv deployer m s := by
  induction hs with
  | init => exact inv_initial deployer m
  | step_register sender extVal hs hok ih =>
      exact inv_register deployer m _ _ sender extVal _ ih hok
  | step_draw keccak env sender hs hok ih =>
      exact inv_draw deployer m _ _ keccak env sender _ ih hok

/-! ## A concrete execution

A deployment with admin `0` and cap `2`, an instantiation of the
abstract `keccak256` by the constant-zero function, and a concrete run:
participant `1` registers, the admin draws, participant `2` registers
late.  These states witness reachability hypotheses below. -/

def exKeccak : List Nat → Nat := fun _ => 0

def exEnv : BlockEnv := ⟨0, 0, 0, 0⟩

def exS0 : ContractState := initialState 0 2

def exS1 : ContractState := (registerCall exS0 1 5).1

def exS2 : ContractState := (drawWinnerCall exKeccak exEnv 0 exS1).1

def exS3 : ContractState := (registerCall exS2 2 7).1

def exT1 : ContractState := (registerCall exS0 3 9).1

def exT2 : ContractState := (drawWinnerCall exKeccak exEnv 0 exT1).1

theorem exS1_step : register exS0 1 5 = .ok (exS1, ⟨1, 0⟩) := rfl

theorem exS2_step : drawWinner exKeccak exEnv 0 exS1 = .ok (exS2, ⟨0, 1⟩) := rfl

theorem exS3_step : register exS2 2 7 = .ok (exS3, ⟨2, 1⟩) := rfl

theorem exT1_step : register exS0 3 9 = .ok (exT1, ⟨3, 0⟩) := rfl

theorem exT2_step : drawWinner exKeccak exEnv 0 exT1 = .ok (exT2, ⟨0, 1⟩) := rfl

theorem exS1_reachable : Reachable 0 2 exS1 :=
  Reachable.step_register 1 5 Reachable.init exS1_step

theorem exS2_reachable : Reachable 0 2 exS2 :=
  Reachable.step_draw exKeccak exEnv 0 exS1_reachable exS2_step

theorem exS3_reachable : Reachable 0 2 exS3 :=
  Reachable.step_register 2 7 exS2_reachable exS3_step

/-! ## The claims -/

/-- C2: in every reachable state, a participant's win-status ciphertext
carries no user ACL grant for any other participant: each participant
can decrypt only their own result. -/
theorem winStatus_acl_private (deployer m : Nat) (s : ContractState) (p q : Address)
    (hs : Reachable deployer m s) (hp : s.isRegistered p = true)
    (hq : s.isRegistered q = true) (hpq : q ≠ p) :
    s.fhe.aclUser (s.winStatus p) q = false := by
  have hInv := reachable_inv deployer m s hs
  rw [← Bool.not_eq_true]
  intro hacl
  exact hpq (hInv.ws_acl p q hp hacl)

/-- C2 witness: in the concrete three-step run, the late registrant `2`
holds no grant on participant `1`'s win status. -/
theorem winStatus_acl_private_witness :
    exS3.fhe.aclUser (exS3.winStatus 1) 2 = false :=
  winStatus_acl_private 0 2 exS3 1 2 exS3_reachable rfl rfl (by decide)

/-- C4: `drawWinner` reverts `NotAuthorized` exactly when the caller is
not the admin recorded at construction; that revert leaves the state
unchanged, and `admin()` always returns the deployer. -/
theorem drawWinner_admin_gate (deployer m : Nat) (keccak : List Nat → Nat)
    (env : BlockEnv) (sender : Address) (s : ContractState)
    (hs : Reachable deployer m s) :
    (drawWinner keccak env sender s = .error .notAuthorized ↔ sender ≠ s.admin) ∧
    (sender ≠ s.admin → (drawWinnerCall keccak env sender s).1 = s) ∧
    s.admin = deployer := by
  refine ⟨⟨?_, ?_⟩, ?_, (reachable_inv deployer m s hs).admin_eq⟩
  · intro h hc
    by_cases h2 : s.participants.length = 0
    · rw [drawWinner_error_empty keccak env sender s hc h2] at h
      cases h
    · rw [drawWinner_eq_ok keccak env sender s hc h2] at h
      cases h
  · intro h
    exact drawWinner_error_auth keccak env sender s h
  · intro h
    simp [drawWinnerCall, drawWinner_error_auth keccak env sender s h]

/-- C4 witness: from the reachable one-participant state, a non-admin
caller is rejected with `NotAuthorized`. -/
theorem drawWinner_admin_gate_witness :
    drawWinner exKeccak exEnv 5 exS1 = .error .notAuthorized ↔ 5 ≠ exS1.admin :=
  (drawWinner_admin_gate 0 2 exKeccak exEnv 5 exS1 exS1_reachable).1

/-- C5: `register` reverts `AlreadyRegistered` exactly for repeat
callers, leaving the state unchanged; a successful registration marks
the caller registered and grows the participant count by one. -/
theorem register_at_most_once (s : ContractState) (sender : Address) (extVal : Nat) :
    (register s sender extVal = .error .alreadyRegistered ↔ s.isRegistered sender = true) ∧
    (s.isRegistered sender = true → (registerCall s sender extVal).1 = s) ∧
    (∀ s' ev, register s sender extVal = .ok (s', ev) →
      s.isRegistered sender = false ∧ s'.isRegistered sender = true ∧
      s'.participantCount = s.participantCount + 1) := by
  refine ⟨⟨?_, ?_⟩, ?_, ?_⟩
  · intro h
    by_cases h1 : s.registered sender
    · exact h1
    · by_cases h2 : s.MAX_PARTICIPANTS ≤ s.participants.length
      · rw [register_error_full s sender extVal (by simpa using h1) h2] at h
        cases h
      · rw [register_eq_ok s sender extVal (by simpa using h1) (by omega)] at h
        cases h
  · intro h
    exact register_error_already s sender extVal h
  · intro h
    simp [registerCall, register_error_already s sender extVal h]
  · intro s' ev h
    obtain ⟨hreg, hroom, heq⟩ := register_ok_inv s sender extVal s' ev h
    have hs' : s' = (registerOk s sender extVal).1 := by rw [← heq]
    subst hs'
    refine ⟨hreg, ?_, ?_⟩
    · show upd s.registered sender true sender = true
      rw [upd_same]
    · show (s.participants ++ [sender]).length = s.participants.length + 1
      simp

/-- C5 witness: registering twice from address `1` is rejected. -/
theorem register_at_most_once_witness :
    register exS1 1 5 = .error .alreadyRegistered ↔ exS1.isRegistered 1 = true :=
  (register_at_most_once exS1 1 5).1

/-- C6: for the admin caller, `drawWinner` reverts `NoParticipants`
exactly when the participant list is empty, and on that revert the whole
state (including `_encryptedWinnerIndex`, `_hasDrawn`,
`_lastDrawTimestamp`, and every win status) is unchanged. -/
theorem drawWinner_empty_gate (keccak : List Nat → Nat) (env : BlockEnv)
    (sender : Address) (s : ContractState) (hadm : sender = s.ADMIN_ADDRESS) :
    (drawWinner keccak env sender s = .error .noParticipants ↔ s.participants = []) ∧
    (s.participants = [] → (drawWinnerCall keccak env sender s).1 = s) := by
  constructor
  · constructor
    · intro h
      by_cases h2 : s.participants.length = 0
      · exact List.length_eq_zero.mp h2
      · rw [drawWinner_eq_ok keccak env sender s hadm h2] at h
        cases h
    · intro h
      exact drawWinner_error_empty keccak env sender s hadm (by simp [h])
  · intro h
    simp [drawWinnerCall,
      drawWinner_error_empty keccak env sender s hadm (by simp [h])]

/-- C6 witness: the admin's draw on the freshly deployed (empty)
contract reverts `NoParticipants`. -/
theorem drawWinner_empty_gate_witness :
    drawWinner exKeccak exEnv 0 exS0 = .error .noParticipants ↔ exS0.participants = [] :=
  (drawWinner_empty_gate exKeccak exEnv 0 exS0 rfl).1

/-- C9: a registration that happens after a draw grants the newcomer
decrypt access to the existing winner-index ciphertext, does not change
the winner index or its plaintext, and initialises the newcomer's win
status to encrypted `false` (it decrypts to `0`) until the next draw. -/
theorem late_registration (deployer m : Nat) (s s' : ContractState) (sender : Address)
    (extVal : Nat) (ev : RegEvent) (hs : Reachable deployer m s)
    (hd : s.hasDrawn = true) (hok : register s sender extVal = .ok (s', ev)) :
    s'.fhe.aclUser s'.encryptedWinnerIndex sender = true ∧
    s'.encryptedWinnerIndex = s.encryptedWinnerIndex ∧
    s'.fhe.vals s'.encryptedWinnerIndex = s.fhe.vals s.encryptedWinnerIndex ∧
    s'.fhe.vals (s'.winStatus sender) = 0 := by
  have hInv := reachable_inv deployer m s hs
  obtain ⟨hreg, hroom, heq⟩ := register_ok_inv s sender extVal s' ev hok
  have hs' : s' = (registerOk s sender extVal).1 := by rw [← heq]
  subst hs'
  have hwidx := hInv.widx_lt
  refine ⟨?_, rfl, ?_, ?_⟩
  · rw [registerOk_encryptedWinnerIndex, registerOk_fhe_aclUser]
    exact Or.inl ⟨hd, rfl, rfl⟩
  · rw [registerOk_encryptedWinnerIndex, registerOk_fhe_vals,
      upd_ne _ _ _ _ (by omega : s.encryptedWinnerIndex ≠ s.fhe.nextHandle + 1),
      upd_ne _ _ _ _ (by omega : s.encryptedWinnerIndex ≠ s.fhe.nextHandle)]
  · rw [registerOk_winStatus, registerOk_fhe_vals, upd_same, upd_same]

/-- C9 witness: in the concrete run, the post-draw registrant `2`
receives winner-index access and a win status that decrypts to `0`. -/
theorem late_registration_witness :
    exS3.fhe.vals (exS3.winStatus 2) = 0 :=
  (late_registration 0 2 exS2 exS3 2 7 ⟨2, 1⟩ exS2_reachable rfl exS3_step).2.2.2

/-- The positional invariant of `_indices`: at every reachable state of
a deployment whose cap fits in a `uint32`, the stored index of the
participant at position `i` is `i`. -/
theorem reachable_indices (deployer m : Nat) (s : ContractState)
    (hs : Reachable deployer m s) (hm : m ≤ 2 ^ 32) :
    ∀ i (hi : i < s.participants.length), s.indices (s.participants.get ⟨i, hi⟩) = i := by
  induction hs with
  | init => intro i hi; simp [initialState] at hi
  | @step_register s₀ s₁ ev sender extVal hsr hok ih =>
      obtain ⟨hreg, hroom, heq⟩ := register_ok_inv s₀ sender extVal s₁ ev hok
      have hInv := reachable_inv deployer m s₀ hsr
      have hs' : s₁ = (registerOk s₀ sender extVal).1 := by rw [← heq]
      subst hs'
      have hnotmem : sender ∉ s₀.participants := fun hmem => by
        have := (hInv.reg_mem sender).mpr hmem
        rw [hreg] at this
        cases this
      have hmax := hInv.max_eq
      intro i hi
      simp only [registerOk_participants, List.length_append,
        List.length_singleton] at hi
      simp only [registerOk_participants, registerOk_indices, List.get_eq_getElem]
      rcases Nat.lt_or_ge i s₀.participants.length with hlt | hge
      · rw [List.getElem_append_left hlt]
        have hmem := List.get_mem s₀.participants i hlt
        simp only [List.get_eq_getElem] at hmem
        have hne : s₀.participants[i] ≠ sender := fun hc => hnotmem (hc ▸ hmem)
        rw [upd_ne _ _ _ _ hne]
        have := ih i hlt
        simpa using this
      · have hieq : i = s₀.participants.length := by omega
        subst hieq
        rw [List.getElem_concat_length _ _ _ rfl, upd_same]
        exact Nat.mod_eq_of_lt (by omega)
  | @step_draw s₀ s₁ ev keccak env sender hsr hok ih =>
      obtain ⟨hadm, hne, heq⟩ := drawWinner_ok_inv keccak env sender s₀ s₁ ev hok
      have hs' : s₁ = (drawWinnerOk keccak env s₀).1 := by rw [← heq]
      subst hs'
      simpa using ih

/-- C10: every reachable state (of a deployment whose cap fits in a
`uint32`) keeps the registry consistent: no duplicate participants,
`isRegistered` is exactly list membership, the stored index of the
participant at position `i` is `i`, and `ParticipantRegistered` events
carry the zero-based position. -/
theorem registry_consistency (deployer m : Nat) (s : ContractState)
    (hs : Reachable deployer m s) (hm : m ≤ 2 ^ 32) :
    s.participants.Nodup ∧
    (∀ a, s.isRegistered a = true ↔ a ∈ s.participants) ∧
    (∀ i (hi : i < s.participants.length), s.indices (s.participants.get ⟨i, hi⟩) = i) ∧
    (∀ sender extVal s' ev, register s sender extVal = .ok (s', ev) →
      ev.index = s.participants.length) := by
  have hInv := reachable_inv deployer m s hs
  refine ⟨hInv.nodup, hInv.reg_mem, reachable_indices deployer m s hs hm, ?_⟩
  intro sender extVal s' ev hok
  obtain ⟨hreg, hroom, heq⟩ := register_ok_inv s sender extVal s' ev hok
  have hev : ev = (registerOk s sender extVal).2 := by rw [← heq]
  have hmax := hInv.max_eq
  rw [hev, registerOk_event]
  exact Nat.mod_eq_of_lt (by omega)

/-- C10 witness: the registry of the reachable one-participant state is
consistent. -/
theorem registry_consistency_witness : exS1.participants.Nodup :=
  (registry_consistency 0 2 exS1 exS1_reachable (by norm_num)).1

/-- C1: a successful admin draw on a non-empty reachable state (cap
within `uint32`) stores, encrypted, the winner index `seed % n`, which
is strictly below `n`, and sets the win status of the participant at
each position `i < n` to the encrypted comparison `i = seed % n` — so
exactly one participant's win status decrypts to true. -/
theorem drawWinner_fair (deployer m : Nat) (keccak : List Nat → Nat) (env : BlockEnv)
    (sender : Address) (s : ContractState)
    (hs : Reachable deployer m s) (hm : m ≤ 2 ^ 32)
    (hadm : sender = s.ADMIN_ADDRESS) (hne : s.participants ≠ []) :
    (drawWinnerCall keccak env sender s).2 =
      .ok ⟨drawCommitment keccak env s.participants.length s.lastDrawTimestamp,
           s.participants.length⟩ ∧
    drawSeed keccak env s.participants.length s.lastDrawTimestamp %
        s.participants.length < s.participants.length ∧
    (drawWinnerCall keccak env sender s).1.fhe.vals
        ((drawWinnerCall keccak env sender s).1.encryptedWinnerIndex) =
      drawSeed keccak env s.participants.length s.lastDrawTimestamp %
        s.participants.length ∧
    ∀ i (hi : i < s.participants.length),
      (drawWinnerCall keccak env sender s).1.fhe.vals
          ((drawWinnerCall keccak env sender s).1.winStatus
            (s.participants.get ⟨i, hi⟩)) =
        if i = drawSeed keccak env s.participants.length s.lastDrawTimestamp %
            s.participants.length then 1 else 0 := by
  have hInv := reachable_inv deployer m s hs
  have hlen : s.participants.length ≠ 0 := fun h => hne (List.length_eq_zero.mp h)
  have hcap : s.participants.length ≤ 2 ^ 32 := le_trans hInv.len_le hm
  have hw : winnerIndexOf keccak env s.participants.length s.lastDrawTimestamp =
      drawSeed keccak env s.participants.length s.lastDrawTimestamp %
        s.participants.length := by
    unfold winnerIndexOf
    exact Nat.mod_eq_of_lt
      (lt_of_lt_of_le (Nat.mod_lt _ (Nat.pos_of_ne_zero hlen)) hcap)
  have hcall : drawWinnerCall keccak env sender s =
      ((drawWinnerOk keccak env s).1, .ok (drawWinnerOk keccak env s).2) := by
    simp [drawWinnerCall, drawWinner_eq_ok keccak env sender s hadm hlen]
  rw [hcall]
  refine ⟨by simp, Nat.mod_lt _ (Nat.pos_of_ne_zero hlen), ?_, ?_⟩
  · simp only [drawWinnerOk_encryptedWinnerIndex]
    rw [drawWinnerOk_vals_winner, hw]
  · intro i hi
    rw [drawWinnerOk_ws_get keccak env s hInv.nodup i hi,
      drawWinnerOk_vals_ws keccak env s i hi, hw,
      Nat.mod_eq_of_lt (lt_of_lt_of_le hi hcap)]
    by_cases hie : i = drawSeed keccak env s.participants.length s.lastDrawTimestamp %
        s.participants.length
    · simp [hie]
    · simp [hie, Ne.symm hie]

/-- C1 witness: in the concrete run, the drawn winner index stored for
the one-participant state equals the seed modulo the participant
count. -/
theorem drawWinner_fair_witness :
    (drawWinnerCall exKeccak exEnv 0 exS1).1.fhe.vals
        ((drawWinnerCall exKeccak exEnv 0 exS1).1.encryptedWinnerIndex) =
      drawSeed exKeccak exEnv exS1.participants.length exS1.lastDrawTimestamp %
        exS1.participants.length :=
  (drawWinner_fair 0 2 exKeccak exEnv 0 exS1 exS1_reachable (by norm_num) rfl
    (by decide)).2.2.1

/-- C7: the draw is a deterministic function of the block environment
and of exactly the seed inputs — two admin draws in the same block
context over states agreeing on participant count and last-draw
timestamp store the same winner value and emit the same event, and from
equal states they produce equal results. -/
theorem drawWinner_deterministic (keccak : List Nat → Nat) (env : BlockEnv)
    (sender : Address) (s₁ s₂ : ContractState) (r₁ r₂ : ContractState × DrawEvent)
    (hc : s₁.participants.length = s₂.participants.length)
    (ht : s₁.lastDrawTimestamp = s₂.lastDrawTimestamp)
    (h₁ : drawWinner keccak env sender s₁ = .ok r₁)
    (h₂ : drawWinner keccak env sender s₂ = .ok r₂) :
    r₁.1.fhe.vals r₁.1.encryptedWinnerIndex = r₂.1.fhe.vals r₂.1.encryptedWinnerIndex ∧
    r₁.2 = r₂.2 ∧ (s₁ = s₂ → r₁ = r₂) := by
  obtain ⟨s₁', ev₁⟩ := r₁
  obtain ⟨s₂', ev₂⟩ := r₂
  obtain ⟨ha1, hn1, he1⟩ := drawWinner_ok_inv keccak env sender s₁ s₁' ev₁ h₁
  obtain ⟨ha2, hn2, he2⟩ := drawWinner_ok_inv keccak env sender s₂ s₂' ev₂ h₂
  have hs1 : s₁' = (drawWinnerOk keccak env s₁).1 := by rw [← he1]
  have hs2 : s₂' = (drawWinnerOk keccak env s₂).1 := by rw [← he2]
  have hev1 : ev₁ = (drawWinnerOk keccak env s₁).2 := by rw [← he1]
  have hev2 : ev₂ = (drawWinnerOk keccak env s₂).2 := by rw [← he2]
  refine ⟨?_, ?_, ?_⟩
  · rw [hs1, hs2]
    simp only [drawWinnerOk_encryptedWinnerIndex]
    rw [drawWinnerOk_vals_winner, drawWinnerOk_vals_winner]
    unfold winnerIndexOf drawSeed
    rw [hc, ht]
  · rw [hev1, hev2, drawWinnerOk_event, drawWinnerOk_event]
    unfold drawCommitment drawSeed
    rw [hc, ht]
  · intro hss
    subst hss
    exact he1.trans he2.symm

/-- C7 witness: two one-participant states with different participants
but equal counts and last-draw timestamps store the same winner
value. -/
theorem drawWinner_deterministic_witness :
    exS2.fhe.vals exS2.encryptedWinnerIndex = exT2.fhe.vals exT2.encryptedWinnerIndex :=
  (drawWinner_deterministic exKeccak exEnv 0 exS1 exT1 (exS2, ⟨0, 1⟩) (exT2, ⟨0, 1⟩)
    rfl rfl exS2_step exT2_step).1

/-- C8: every reachable state respects the cap `participantCount() ≤
maxParticipants()` (the constructor argument), and a registration
attempt by a fresh address when the cap is reached reverts with the
message `"Maximum participants reached"` leaving the state unchanged. -/
theorem max_participants_cap (deployer m : Nat) (s : ContractState) (sender : Address)
    (extVal : Nat) (hs : Reachable deployer m s) :
    s.participantCount ≤ s.maxParticipants ∧ s.maxParticipants = m ∧
    (s.participantCount = s.maxParticipants → s.isRegistered sender = false →
      (registerCall s sender extVal).2 = .error (.reverted "Maximum participants reached") ∧
      (registerCall s sender extVal).1 = s) := by
  have hInv := reachable_inv deployer m s hs
  have h1 : s.participantCount ≤ s.maxParticipants := by
    show s.participants.length ≤ s.MAX_PARTICIPANTS
    rw [hInv.max_eq]
    exact hInv.len_le
  refine ⟨h1, hInv.max_eq, ?_⟩
  intro hfull hnr
  have hfull' : s.MAX_PARTICIPANTS ≤ s.participants.length := by
    show s.MAX_PARTICIPANTS ≤ s.participants.length
    have : s.participants.length = s.MAX_PARTICIPANTS := hfull
    omega
  constructor <;> simp [registerCall, register_error_full s sender extVal hnr hfull']

/-- C8 witness: the reachable one-participant state respects the cap. -/
theorem max_participants_cap_witness : exS1.participantCount ≤ exS1.maxParticipants :=
  (max_participants_cap 0 2 exS1 4 0 exS1_reachable).1

/-- C3 counterexample: the three-phase lifecycle is not enforced.  In
the concrete run, after a successful draw (`exS2.hasDrawn = true`) a
further registration succeeds and a further draw succeeds, refuting
"once a draw has occurred no further registration or draw transition is
possible". -/
theorem lifecycle_counterexample :
    exS2.hasDrawn = true ∧
    (registerCall exS2 2 7).2 = .ok ⟨2, 1⟩ ∧
    (drawWinnerCall exKeccak exEnv 0 exS2).2 = .ok ⟨0, 1⟩ :=
  ⟨rfl, rfl, rfl⟩

/-- C3 (amended): the contract only tracks a draw flag, not a strict
three-phase lifecycle: `_hasDrawn` starts `false`, is set by every
successful draw and is never cleared by a registration; but neither
registration nor drawing is disabled afterwards — `register` succeeds
exactly when the caller is fresh and the cap is not reached, and
`drawWinner` succeeds exactly when the admin calls it on a non-empty
list, in both cases regardless of whether a draw has occurred. -/
theorem lifecycle_flag (deployer m : Nat) :
    (initialState deployer m).hasDrawn = false ∧
    (∀ (keccak : List Nat → Nat) (env : BlockEnv) (sender : Address)
        (s : ContractState) (r : ContractState × DrawEvent),
      drawWinner keccak env sender s = .ok r → r.1.hasDrawn = true) ∧
    (∀ (s : ContractState) (sender : Address) (extVal : Nat)
        (r : ContractState × RegEvent),
      register s sender extVal = .ok r → r.1.hasDrawn = s.hasDrawn) ∧
    (∀ (s : ContractState) (sender : Address) (extVal : Nat),
      (∃ r, register s sender extVal = .ok r) ↔
        (s.registered sender = false ∧ s.participants.length < s.MAX_PARTICIPANTS)) ∧
    (∀ (keccak : List Nat → Nat) (env : BlockEnv) (sender : Address)
        (s : ContractState),
      (∃ r, drawWinner keccak env sender s = .ok r) ↔
        (sender = s.ADMIN_ADDRESS ∧ s.participants.length ≠ 0)) := by
  refine ⟨rfl, ?_, ?_, ?_, ?_⟩
  · intro keccak env sender s r h
    obtain ⟨s', ev⟩ := r
    obtain ⟨-, -, heq⟩ := drawWinner_ok_inv keccak env sender s s' ev h
    have hs' : s' = (drawWinnerOk keccak env s).1 := by rw [← heq]
    rw [hs']
    exact drawWinnerOk_hasDrawn keccak env s
  · intro s sender extVal r h
    obtain ⟨s', ev⟩ := r
    obtain ⟨-, -, heq⟩ := register_ok_inv s sender extVal s' ev h
    have hs' : s' = (registerOk s sender extVal).1 := by rw [← heq]
    rw [hs']
    exact registerOk_hasDrawn s sender extVal
  · intro s sender extVal
    constructor
    · rintro ⟨⟨s', ev⟩, h⟩
      obtain ⟨hreg, hroom, -⟩ := register_ok_inv s sender extVal s' ev h
      exact ⟨hreg, hroom⟩
    · rintro ⟨hreg, hroom⟩
      exact ⟨registerOk s sender extVal, register_eq_ok s sender extVal hreg hroom⟩
  · intro keccak env sender s
    constructor
    · rintro ⟨⟨s', ev⟩, h⟩
      obtain ⟨hadm, hne, -⟩ := drawWinner_ok_inv keccak env sender s s' ev h
      exact ⟨hadm, hne⟩
    · rintro ⟨hadm, hne⟩
      exact ⟨drawWinnerOk keccak env s, drawWinner_eq_ok keccak env sender s hadm hne⟩

/-- C3 witness: a fresh deployment has not drawn yet. -/
theorem lifecycle_flag_witness : (initialState 0 2).hasDrawn = false :=
  (lifecycle_flag 0 2).1

end LuckyDraw
